import Mathlib

/-!
Verification development for the ObsidianAnkiDark flashcard pipeline.

The definitions below are a shallow embedding of the TypeScript parser
(`parser.ts`): the Field Splitter `splitIntoFields`, the Cloze Normalizer
`convertToAnkiCloze` (three sequential regex-replace passes), the Delimiter
Scanner (`getCodeBlocks`, `getLatexBlocks`, `getBlockSequence`), the Inline
Formatter (`applyMarkdownFormatting`, `applyBlockFormatting`,
`formatFlashcardField`), the Reconciliation Engine's new-card loop
(`syncAddGo`, from `syncFlashcardsWithAnki`) and the Deletion Scanner
(`deleteMarkedModel`, from `deleteMarkedFlashcards`).

Strings are modelled as `List Char`.  JavaScript regex matching is modelled
by explicit scanners that reproduce the leftmost-match / greedy / lazy
semantics of the concrete regexes appearing in the source.  The scanners
that can consume a variable number of characters per step take a fuel
argument; the wrappers instantiate it with `length + 1`, which is enough
because every step consumes at least one character.
-/

/-- Convert a string literal to the `List Char` representation. -/
def jstr (s : String) : List Char := s.toList

/-- The backtick character (code point 96). -/
def btick : Char := Char.ofNat 96

/-- JavaScript line terminators (for multiline `^`/`$` and for `.`). -/
def isLineTermChar (c : Char) : Bool :=
  decide (c = '\n' ∨ c = '\r' ∨ c = '\u2028' ∨ c = '\u2029')

/-- JavaScript `\s` (whitespace), restricted to the code points that can
occur in this development's inputs. -/
def isJsWsChar (c : Char) : Bool :=
  decide (c = ' ' ∨ c = '\t' ∨ c = '\n' ∨ c = '\r' ∨ c = '\x0b' ∨ c = '\x0c' ∨
    c = '\u00A0' ∨ c = '\uFEFF' ∨ c = '\u2028' ∨ c = '\u2029')

/-- JavaScript `\w`: ASCII letters, digits and underscore. -/
def isWordChar (c : Char) : Bool :=
  decide (('a' ≤ c ∧ c ≤ 'z') ∨ ('A' ≤ c ∧ c ≤ 'Z') ∨ ('0' ≤ c ∧ c ≤ '9') ∨ c = '_')

/-- JavaScript `String.prototype.trim`, on both ends. -/
def jsTrim (cs : List Char) : List Char :=
  ((cs.dropWhile isJsWsChar).reverse.dropWhile isJsWsChar).reverse

/-- A single decimal digit character. -/
def digitChar : Nat → Char
  | 0 => '0' | 1 => '1' | 2 => '2' | 3 => '3' | 4 => '4'
  | 5 => '5' | 6 => '6' | 7 => '7' | 8 => '8' | _ => '9'

/-- Decimal representation of a natural number (JavaScript number→string
interpolation). -/
def natToCharsAux : Nat → Nat → List Char
  | 0, _ => []
  | fuel + 1, n =>
    if n < 10 then [digitChar n]
    else natToCharsAux fuel (n / 10) ++ [digitChar (n % 10)]

/-- Decimal representation of a natural number. -/
def natToChars (n : Nat) : List Char := natToCharsAux (n + 1) n

/-- Numeric value of a list of decimal digit characters (JavaScript
`Number(...)` on an all-digit string). -/
def digitsToNat (ds : List Char) : Nat :=
  ds.foldl (fun acc c => acc * 10 + (c.toNat - 48)) 0

/-- Length of the maximal run of the character `c` at the head of the list
(the `/^(:+)/` length computation in `splitIntoFields`). -/
def countLeading (c : Char) : List Char → Nat
  | [] => 0
  | x :: xs => if x = c then countLeading c xs + 1 else 0

/-- JavaScript `content.slice(a, b)` for natural indices (clamping). -/
def listSlice (cs : List Char) (a b : Nat) : List Char :=
  (cs.drop a).take (b - a)

/-!  ## Field Splitter (`splitIntoFields`)

Character-by-character scan of a card body tracking curly-brace nesting
depth.  A run of two or more colons at depth 0 ends the current field; the
`reverseCard` flag is assigned `colonCount == 3` at every separator run.
The final part is pushed only if nonempty (JavaScript truthiness), and all
fields are trimmed at the end. -/

/-- One step of the `splitIntoFields` loop.  `fuel` bounds the number of
steps (each step consumes at least one character). -/
def splitGoF : Nat → List Char → List Char → Int → Bool → List (List Char) × Bool
  | 0, _, cur, _, rev => (if cur.isEmpty then [] else [cur], rev)
  | _ + 1, [], cur, _, rev => (if cur.isEmpty then [] else [cur], rev)
  | fuel + 1, c :: rest, cur, depth, rev =>
    if c = ':' ∧ rest.head? = some ':' ∧ depth = 0 then
      let n := countLeading ':' (c :: rest)
      let r := splitGoF fuel (rest.drop (n - 1)) [] depth (decide (n = 3))
      (cur :: r.1, r.2)
    else
      let depth' : Int := if c = '{' then depth + 1 else if c = '}' then depth - 1 else depth
      splitGoF fuel rest (cur ++ [c]) depth' rev

/-- `splitIntoFields` from `parser.ts`: returns the trimmed fields and the
reversed-card flag. -/
def splitIntoFields (cs : List Char) : List (List Char) × Bool :=
  let r := splitGoF (cs.length + 1) cs [] 0 false
  (r.1.map jsTrim, r.2)

/-- Characters that are neither a colon nor a curly brace (so the Field
Splitter scans over them without splitting or changing depth). -/
def plainChars (a : List Char) : Prop :=
  ∀ ch ∈ a, ch ≠ ':' ∧ ch ≠ '{' ∧ ch ≠ '}'

/-- Characters that are not curly braces (depth is unchanged while scanning
them; colons among them are allowed). -/
def braceFree (a : List Char) : Prop :=
  ∀ ch ∈ a, ch ≠ '{' ∧ ch ≠ '}'

/-!  ## Reconciliation Engine: the new-card loop of `syncFlashcardsWithAnki`

For each new card (paired with the id returned by the batched `addNotes`
call, `null`/missing on per-record failure): skip non-numeric ids; insert a
footnote line `^id` at `endLine + 1 + linesInserted` when the card had no
previous id (prepending a newline when the target line is past the end of
the document), otherwise replace the stale id in line
`endLine + linesInserted`.  `linesInserted` counts only insertions;
`cardsAdded` counts every card that received a numeric id. -/

/-- A new card as seen by the reconciliation loop: the last line of its
block and its previously embedded id, if any. -/
structure SyncCard where
  endLine : Nat
  oldId : Option Nat
deriving DecidableEq, Repr

/-- A document edit produced by the new-card loop. -/
inductive SyncEdit where
  /-- Insert the footnote for `newId` at the start of `targetLine`
  (`atDocEnd` records that the target line was at or past the editor's
  line count, in which case the inserted text is preceded by a newline). -/
  | insertAt (targetLine : Nat) (newId : Nat) (atDocEnd : Bool)
  /-- Replace the stale footnote `^oldId` on `targetLine` with `^newId`. -/
  | replaceLine (targetLine : Nat) (oldId : Nat) (newId : Nat)
deriving DecidableEq, Repr

/-- Target line of a sync edit. -/
def editTarget : SyncEdit → Nat
  | .insertAt t _ _ => t
  | .replaceLine t _ _ => t

/-- The id written back to the document by a sync edit. -/
def editNewId : SyncEdit → Nat
  | .insertAt _ n _ => n
  | .replaceLine _ _ n => n

/-- The new-card loop of `syncFlashcardsWithAnki`: cards are paired
positionally with the ids returned by `addNotesToAnki`; the accumulators
are `linesInserted` and the current editor line count.  Returns the edit
list and `cardsAdded`. -/
def syncAddGo : List SyncCard → List (Option Nat) → Nat → Nat → List SyncEdit × Nat
  | [], _, _, _ => ([], 0)
  | _ :: cards, [], linesInserted, lineCount =>
    syncAddGo cards [] linesInserted lineCount
  | _ :: cards, none :: ids, linesInserted, lineCount =>
    syncAddGo cards ids linesInserted lineCount
  | c :: cards, some newId :: ids, linesInserted, lineCount =>
    match c.oldId with
    | none =>
      let targetLine := c.endLine + 1 + linesInserted
      if targetLine ≥ lineCount then
        let r := syncAddGo cards ids (linesInserted + 1) (lineCount + 2)
        (SyncEdit.insertAt targetLine newId true :: r.1, r.2 + 1)
      else
        let r := syncAddGo cards ids (linesInserted + 1) (lineCount + 1)
        (SyncEdit.insertAt targetLine newId false :: r.1, r.2 + 1)
    | some oldId =>
      let r := syncAddGo cards ids linesInserted lineCount
      (SyncEdit.replaceLine (c.endLine + linesInserted) oldId newId :: r.1, r.2 + 1)

/-!  ## Deletion Scanner (`deleteMarkedFlashcards`)

The regex `/^(?<!::\n)(?<!::\r\n)[ \t]*?delete\s*?\^(\d+)\s*?$/gmi` is
modelled by `matchDeleteAt`; the `exec` loop by `deleteScanGo`; the
end-to-start removal of the matched spans by `removeSpansRev`. -/

/-- Multiline `^`: position 0 or just after a line terminator. -/
def lineStartAt (cs : List Char) (p : Nat) : Bool :=
  decide (p = 0) ||
    (match cs.get? (p - 1) with
     | some c => isLineTermChar c
     | none => false)

/-- The two negative lookbehinds `(?<!::\n)` and `(?<!::\r\n)`. -/
def deleteLookbehindOk (cs : List Char) (p : Nat) : Bool :=
  !(decide (3 ≤ p) && decide (cs.get? (p - 3) = some ':') &&
    decide (cs.get? (p - 2) = some ':') && decide (cs.get? (p - 1) = some '\n')) &&
  !(decide (4 ≤ p) && decide (cs.get? (p - 4) = some ':') &&
    decide (cs.get? (p - 3) = some ':') && decide (cs.get? (p - 2) = some '\r') &&
    decide (cs.get? (p - 1) = some '\n'))

/-- The lazy `\s*?$` tail: the least end position reachable from `q` by
consuming whitespace such that multiline `$` holds there. -/
def lazyWsEnd : List Char → Nat → Option Nat
  | [], q => some q
  | c :: rest, q =>
    if isLineTermChar c then some q
    else if isJsWsChar c then lazyWsEnd rest (q + 1)
    else none

/-- Attempt to match the deletion regex at position `p` of the document.
Returns the end position of the match and the parsed id. -/
def matchDeleteAt (cs : List Char) (p : Nat) : Option (Nat × Nat) :=
  if lineStartAt cs p && deleteLookbehindOk cs p then
    let s0 := cs.drop p
    let indent := s0.takeWhile (fun c => decide (c = ' ' ∨ c = '\t'))
    let s1 := s0.drop indent.length
    if (s1.take 6).map Char.toLower = jstr "delete" then
      let s2 := s1.drop 6
      let ws := s2.takeWhile isJsWsChar
      let s3 := s2.drop ws.length
      match s3 with
      | '^' :: s4 =>
        let ds := s4.takeWhile Char.isDigit
        if ds.isEmpty then none
        else
          let s5 := s4.drop ds.length
          match lazyWsEnd s5 (p + indent.length + 6 + ws.length + 1 + ds.length) with
          | some e => some (e, digitsToNat ds)
          | none => none
      | _ => none
    else none
  else none

/-- The `exec` loop of the deletion regex: collect `(start, end, id)` for
every match, resuming each search at the previous match's end. -/
def deleteScanGo (cs : List Char) : Nat → Nat → List (Nat × Nat × Nat)
  | 0, _ => []
  | fuel + 1, p =>
    if p > cs.length then []
    else
      match matchDeleteAt cs p with
      | some (e, id) => (p, e, id) :: deleteScanGo cs fuel (max e (p + 1))
      | none => if p = cs.length then [] else deleteScanGo cs fuel (p + 1)

/-- Remove a character span `[s, e)` from the document. -/
def removeSpan (cs : List Char) (s e : Nat) : List Char :=
  cs.take s ++ cs.drop e

/-- Remove the listed spans processing from the last match to the first
(as the source does, to avoid offset shifting). -/
def removeSpansRev : List Char → List (Nat × Nat) → List Char
  | cs, [] => cs
  | cs, (s, e) :: rest => removeSpan (removeSpansRev cs rest) s e

/-- `deleteMarkedFlashcards`, as a pure function of the document text:
returns the deleted note ids (in match order) and the document text after
the matched spans are excised. -/
def deleteMarkedModel (cs : List Char) : List Nat × List Char :=
  let found := deleteScanGo cs (cs.length + 1) 0
  let ids := found.map (fun m => m.2.2)
  let spans := found.map (fun m => (m.1, m.2.1))
  (ids, removeSpansRev cs spans)

/-!  ## Cloze Normalizer (`convertToAnkiCloze`)

Three sequential global regex replaces:
1. `(\{+)(?!c\d+::)([^\{\}\n\r:]+)(?:::([^\{\}\n\r:]+))?(\}+)` with the
   cloze number `min(openCount, closeCount)`; inside LaTeX a match with
   cloze number 1 is kept verbatim.
2. `(?<!{){(\d+):([^{}\n\r:]+)(?::([^\{\}\n\r:]+))?}`.
3. `==(\S[^=]+)==` to `{{c1::$1}}`, kept verbatim inside code or LaTeX.

Each pass is a left-to-right scanner; greedy and lazy sub-patterns of these
particular regexes admit a deterministic reading (justified case by case in
the comments). -/

/-- Characters allowed in the cloze text/hint bodies: `[^\{\}\n\r:]`. -/
def isTextChar (c : Char) : Bool :=
  decide (c ≠ '{' ∧ c ≠ '}' ∧ c ≠ '\n' ∧ c ≠ '\r' ∧ c ≠ ':')

/-- The negative lookahead body `c\d+::` tested at the head of a list. -/
def clozeLookaheadC (cs : List Char) : Bool :=
  if cs.head? = some 'c' then
    let ds := cs.tail.takeWhile Char.isDigit
    !ds.isEmpty && decide ((cs.tail.drop ds.length).take 2 = [':', ':'])
  else false

/-- Attempt pass-1's regex at the head of the list.  Since any shorter
opening-brace run leaves a `{` in front of the text body (which the body
cannot match), only the maximal brace runs need to be considered, making
the backtracking search deterministic.  Returns
`(openCount, text, hint?, closeCount, consumedLength)`. -/
def tryBraceCloze (cs : List Char) : Option (Nat × List Char × Option (List Char) × Nat × Nat) :=
  let opens := cs.takeWhile (fun c => decide (c = '{'))
  let o := opens.length
  if o = 0 then none
  else
    let rest1 := cs.drop o
    if clozeLookaheadC rest1 then none
    else
      let text := rest1.takeWhile isTextChar
      if text.isEmpty then none
      else
        let rest2 := rest1.drop text.length
        if rest2.take 2 = [':', ':'] then
          let rest3 := rest2.drop 2
          let hint := rest3.takeWhile isTextChar
          if hint.isEmpty then none
          else
            let closes := (rest3.drop hint.length).takeWhile (fun c => decide (c = '}'))
            if closes.isEmpty then none
            else some (o, text, some hint, closes.length,
                       o + text.length + 2 + hint.length + closes.length)
        else
          let closes := rest2.takeWhile (fun c => decide (c = '}'))
          if closes.isEmpty then none
          else some (o, text, none, closes.length, o + text.length + closes.length)

/-- The canonical replacement `{{c<n>::text}}` / `{{c<n>::text::hint}}`. -/
def clozeCanonical (n : Nat) (text : List Char) (hint : Option (List Char)) : List Char :=
  ['{', '{', 'c'] ++ natToChars n ++ [':', ':'] ++ text ++
    (match hint with
     | some h => [':', ':'] ++ h
     | none => []) ++ ['}', '}']

/-- Pass 1 scanner of `convertToAnkiCloze`. -/
def clozePass1Go (insideLatex : Bool) : Nat → List Char → List Char
  | 0, cs => cs
  | _ + 1, [] => []
  | fuel + 1, c :: rest =>
    match tryBraceCloze (c :: rest) with
    | some (o, text, hint, cc, consumed) =>
      let n := min o cc
      if insideLatex ∧ n = 1 then
        (c :: rest).take consumed ++ clozePass1Go insideLatex fuel ((c :: rest).drop consumed)
      else
        clozeCanonical n text hint ++ clozePass1Go insideLatex fuel ((c :: rest).drop consumed)
    | none => c :: clozePass1Go insideLatex fuel rest

/-- Attempt pass-2's regex (without the lookbehind) at the head of the
list.  Returns `(digits, text, hint?, consumedLength)`; the replacement
reuses the digit capture verbatim. -/
def tryNumCloze (cs : List Char) : Option (List Char × List Char × Option (List Char) × Nat) :=
  match cs with
  | '{' :: rest =>
    let ds := rest.takeWhile Char.isDigit
    if ds.isEmpty then none
    else
      match rest.drop ds.length with
      | ':' :: rest2 =>
        let text := rest2.takeWhile isTextChar
        if text.isEmpty then none
        else
          match rest2.drop text.length with
          | ':' :: rest3 =>
            let hint := rest3.takeWhile isTextChar
            if hint.isEmpty then none
            else
              match rest3.drop hint.length with
              | '}' :: _ =>
                some (ds, text, some hint, 1 + ds.length + 1 + text.length + 1 + hint.length + 1)
              | _ => none
          | '}' :: _ => some (ds, text, none, 1 + ds.length + 1 + text.length + 1)
          | _ => none
      | _ => none
  | _ => none

/-- The pass-2 replacement `{{c<digits>::text}}` / `{{c<digits>::text::hint}}`. -/
def numCanonical (ds : List Char) (text : List Char) (hint : Option (List Char)) : List Char :=
  ['{', '{', 'c'] ++ ds ++ [':', ':'] ++ text ++
    (match hint with
     | some h => [':', ':'] ++ h
     | none => []) ++ ['}', '}']

/-- Pass 2 scanner; `prev` is the previous character of the original text,
for the `(?<!{)` lookbehind.  Every match ends in `}`, so after a match the
previous character is `}`. -/
def clozePass2Go : Nat → Option Char → List Char → List Char
  | 0, _, cs => cs
  | _ + 1, _, [] => []
  | fuel + 1, prev, c :: rest =>
    if c = '{' ∧ prev ≠ some '{' then
      match tryNumCloze (c :: rest) with
      | some (ds, text, hint, consumed) =>
        numCanonical ds text hint ++ clozePass2Go fuel (some '}') ((c :: rest).drop consumed)
      | none => c :: clozePass2Go fuel (some c) rest
    else c :: clozePass2Go fuel (some c) rest

/-- Attempt pass-3's regex `==(\S[^=]+)==` at the head of the list.
Returns the capture `\S[^=]+` and the consumed length. -/
def tryHighlight (cs : List Char) : Option (List Char × Nat) :=
  if cs.take 2 = ['=', '='] then
    match cs.drop 2 with
    | [] => none
    | c1 :: rest =>
      if isJsWsChar c1 then none
      else
        let body := rest.takeWhile (fun c => decide (c ≠ '='))
        if body.isEmpty then none
        else if (rest.drop body.length).take 2 = ['=', '='] then
          some (c1 :: body, 2 + 1 + body.length + 2)
        else none
  else none

/-- Pass 3 scanner; inside code or LaTeX a match is kept verbatim. -/
def clozePass3Go (insideCode insideLatex : Bool) : Nat → List Char → List Char
  | 0, cs => cs
  | _ + 1, [] => []
  | fuel + 1, c :: rest =>
    match tryHighlight (c :: rest) with
    | some (capture, consumed) =>
      (if insideLatex ∨ insideCode then (c :: rest).take consumed
       else '{' :: '{' :: 'c' :: '1' :: ':' :: ':' :: (capture ++ ['}', '}'])) ++
        clozePass3Go insideCode insideLatex fuel ((c :: rest).drop consumed)
    | none => c :: clozePass3Go insideCode insideLatex fuel rest

/-- `convertToAnkiCloze(content, insideCode, insideLatex)` from
`parser.ts`: the three passes in sequence. -/
def convertToAnkiCloze (content : List Char) (insideCode insideLatex : Bool) : List Char :=
  let r1 := clozePass1Go insideLatex (content.length + 1) content
  let r2 := clozePass2Go (r1.length + 1) none r1
  clozePass3Go insideCode insideLatex (r2.length + 1) r2

/-!  ## Delimiter Scanner: `getBlockSequence`

Combines the code/math span lists, tagging each with `blockType = listIndex
+ 1`, sorts stably by start offset, drops any span that starts before the
previous kept span's end, and emits the alternating plain/special segment
sequence. -/

/-- A half-open character span `[start, stop)` (the source's
`{start, end}`). -/
structure SpanR where
  start : Nat
  stop : Nat
deriving DecidableEq, Repr

/-- A span tagged with its block type (`1` for the first input list, `2`
for the second, ...). -/
structure ABlock where
  indices : SpanR
  blockType : Nat
deriving DecidableEq, Repr

/-- A segment of the output sequence: its text and its block type (`0` for
plain text). -/
structure Seg where
  content : List Char
  blockType : Nat
deriving DecidableEq, Repr

/-- Tag every span of every input list with `listIndex + 1`, preserving
order (the `blocks.forEach` of the source). -/
def tagBlocks : Nat → List (List SpanR) → List ABlock
  | _, [] => []
  | i, arr :: rest => arr.map (fun s => ⟨s, i + 1⟩) ++ tagBlocks (i + 1) rest

/-- Drop every block that starts before the previous kept block's end
(the "silently skip on overlap" filter); `lastEnd` starts at `0`, so the
first block is always kept. -/
def filterOverlapGo : Nat → List ABlock → List ABlock
  | _, [] => []
  | lastEnd, b :: rest =>
    if b.indices.start ≥ lastEnd then b :: filterOverlapGo b.indices.stop rest
    else filterOverlapGo lastEnd rest

/-- Emit the segment sequence from the filtered blocks: a plain gap before
each block when nonempty, the block itself, and the plain tail after the
last block when nonempty. -/
def buildSeqGo (content : List Char) : List ABlock → Nat → List Seg
  | [], lastEnd =>
    if lastEnd < content.length then [⟨listSlice content lastEnd content.length, 0⟩] else []
  | b :: rest, lastEnd =>
    (if b.indices.start > lastEnd then [(⟨listSlice content lastEnd b.indices.start, 0⟩ : Seg)] else []) ++
      ⟨listSlice content b.indices.start b.indices.stop, b.blockType⟩ ::
        buildSeqGo content rest b.indices.stop

/-- `getBlockSequence` from `parser.ts`. -/
def getBlockSequence (content : List Char) (blocks : List (List SpanR)) : List Seg :=
  let sorted := List.insertionSort
    (fun a b : ABlock => a.indices.start ≤ b.indices.start) (tagBlocks 0 blocks)
  buildSeqGo content (filterOverlapGo 0 sorted) 0

/-- Concatenation of the segment contents. -/
def concatSegs (segs : List Seg) : List Char :=
  (segs.map Seg.content).flatten

/-!  ## Delimiter Scanner: `getCodeBlocks` and `getLatexBlocks`

Each function collects the span lists of two regexes over the whole text
(`matchAll`), fenced/doubled blocks first, inline spans second, and returns
their concatenation. -/

/-- Find the least position `≥ q` carrying a triple backtick whose
preceding character (`prev`) is not a backslash (the closing-fence search,
i.e. the lazy `[\s\S]*?` expansion of the fenced-code regex). -/
def findTripleTick (prev : Char) : List Char → Nat → Option Nat
  | [], _ => none
  | c :: rest, q =>
    if c = btick ∧ rest.take 2 = [btick, btick] then
      if prev ≠ '\\' then some q else findTripleTick c rest (q + 1)
    else findTripleTick c rest (q + 1)

/-- Scanner for the fenced-code regex
`` /```(?<!\\```)(\w*)[\s\S]*?```(?<!\\```)/g ``. -/
def codeBlockScanGo : Nat → Option Char → List Char → Nat → List SpanR
  | 0, _, _, _ => []
  | fuel + 1, prev, cs, p =>
    match cs with
    | [] => []
    | c :: rest =>
      if c = btick ∧ rest.take 2 = [btick, btick] ∧ prev ≠ some '\\' then
        let w := (cs.drop 3).takeWhile isWordChar
        let prevc := if w.isEmpty then btick else w.getLastD btick
        match findTripleTick prevc ((cs.drop 3).drop w.length) (p + 3 + w.length) with
        | some q =>
          ⟨p, q + 3⟩ :: codeBlockScanGo fuel (some btick) (cs.drop (q + 3 - p)) (q + 3)
        | none => codeBlockScanGo fuel (some c) rest (p + 1)
      else codeBlockScanGo fuel (some c) rest (p + 1)

/-- Scanner for the inline-code regex `` /`(?<![`\\]`)[^`\r\n]*`(?!`)/g ``.
The greedy body is a maximal run of non-backtick, non-newline characters;
a failed closing lookahead cannot be repaired by backtracking, so the
match attempt is deterministic. -/
def inlineCodeScanGo : Nat → Option Char → List Char → Nat → List SpanR
  | 0, _, _, _ => []
  | fuel + 1, prev, cs, p =>
    match cs with
    | [] => []
    | c :: rest =>
      if c = btick ∧ prev ≠ some btick ∧ prev ≠ some '\\' then
        let body := rest.takeWhile (fun x => decide (x ≠ btick ∧ x ≠ '\r' ∧ x ≠ '\n'))
        match rest.drop body.length with
        | c2 :: after =>
          if c2 = btick ∧ after.head? ≠ some btick then
            ⟨p, p + body.length + 2⟩ ::
              inlineCodeScanGo fuel (some btick) after (p + body.length + 2)
          else inlineCodeScanGo fuel (some c) rest (p + 1)
        | [] => inlineCodeScanGo fuel (some c) rest (p + 1)
      else inlineCodeScanGo fuel (some c) rest (p + 1)

/-- `getCodeBlocks` from `parser.ts`: fenced blocks then inline spans. -/
def getCodeBlocks (cs : List Char) : List SpanR :=
  codeBlockScanGo (cs.length + 1) none cs 0 ++ inlineCodeScanGo (cs.length + 1) none cs 0

/-- Find the least position `≥ q` carrying `$$` whose preceding character
is not a backslash (the closing search of the display-math regex). -/
def findDollar2 (prev : Char) : List Char → Nat → Option Nat
  | [], _ => none
  | c :: rest, q =>
    if c = '$' ∧ rest.head? = some '$' then
      if prev ≠ '\\' then some q else findDollar2 c rest (q + 1)
    else findDollar2 c rest (q + 1)

/-- Scanner for the display-math regex `/(?<!\\)\$\$[\s\S]*?\$\$(?<!\\\$\$)/g`. -/
def latexBlockScanGo : Nat → Option Char → List Char → Nat → List SpanR
  | 0, _, _, _ => []
  | fuel + 1, prev, cs, p =>
    match cs with
    | [] => []
    | c :: rest =>
      if c = '$' ∧ rest.head? = some '$' ∧ prev ≠ some '\\' then
        match findDollar2 '$' (rest.drop 1) (p + 2) with
        | some q => ⟨p, q + 2⟩ :: latexBlockScanGo fuel (some '$') (cs.drop (q + 2 - p)) (q + 2)
        | none => latexBlockScanGo fuel (some c) rest (p + 1)
      else latexBlockScanGo fuel (some c) rest (p + 1)

/-- The lazy `.*?\$` search of the inline-math regex: the least closing
`$` position (with its lookbehind `(?<![\$\\]\$)` and lookahead `(?!\$)`)
reachable over non-line-terminator body characters. -/
def inlineMathClose (prev : Char) : List Char → Nat → Option Nat
  | [], _ => none
  | c :: rest, q =>
    if c = '$' ∧ prev ≠ '$' ∧ prev ≠ '\\' ∧ rest.head? ≠ some '$' then some q
    else if isLineTermChar c then none
    else inlineMathClose c rest (q + 1)

/-- Scanner for the inline-math regex
`/\$(?<![\$\\]\$)(?!\$).*?\$(?<![\$\\]\$)(?!\$)/g`. -/
def inlineMathScanGo : Nat → Option Char → List Char → Nat → List SpanR
  | 0, _, _, _ => []
  | fuel + 1, prev, cs, p =>
    match cs with
    | [] => []
    | c :: rest =>
      if c = '$' ∧ prev ≠ some '$' ∧ prev ≠ some '\\' ∧ rest.head? ≠ some '$' then
        match inlineMathClose '$' rest (p + 1) with
        | some q => ⟨p, q + 1⟩ :: inlineMathScanGo fuel (some '$') (cs.drop (q + 1 - p)) (q + 1)
        | none => inlineMathScanGo fuel (some c) rest (p + 1)
      else inlineMathScanGo fuel (some c) rest (p + 1)

/-- `getLatexBlocks` from `parser.ts`: display blocks then inline spans. -/
def getLatexBlocks (cs : List Char) : List SpanR :=
  latexBlockScanGo (cs.length + 1) none cs 0 ++ inlineMathScanGo (cs.length + 1) none cs 0

/-!  ## Inline Formatter -/

/-- The lazy `(.*?)` body search before a closing delimiter: scan over
non-line-terminator characters until the closing delimiter is a prefix;
returns the body and the remainder after the delimiter. -/
def lazyBody (close : List Char) : List Char → Option (List Char × List Char)
  | [] => if close.isEmpty then some ([], []) else none
  | c :: rest =>
    if close.isPrefixOf (c :: rest) then some ([], (c :: rest).drop close.length)
    else if isLineTermChar c then none
    else (lazyBody close rest).map (fun r => (c :: r.1, r.2))

/-- Generic scanner for one emphasis regex `(d₁|d₂)(.*?)\1` replaced by
`open ++ body ++ close` (the source's bold/italic/strikethrough passes). -/
def emphGo (delims : List (List Char)) (tagOpen tagClose : List Char) :
    Nat → List Char → List Char
  | 0, cs => cs
  | _ + 1, [] => []
  | fuel + 1, c :: rest =>
    match delims.find? (fun d => d.isPrefixOf (c :: rest)) with
    | some d =>
      match lazyBody d ((c :: rest).drop d.length) with
      | some (body, after) =>
        tagOpen ++ body ++ tagClose ++ emphGo delims tagOpen tagClose fuel after
      | none => c :: emphGo delims tagOpen tagClose fuel rest
    | none => c :: emphGo delims tagOpen tagClose fuel rest

/-- `applyMarkdownFormatting` from `parser.ts`: bold, then italic, then
strikethrough. -/
def applyMarkdownFormatting (text : List Char) : List Char :=
  let r1 := emphGo [jstr "**", jstr "__"] (jstr "<b>") (jstr "</b>") (text.length + 1) text
  let r2 := emphGo [jstr "*", jstr "_"] (jstr "<i>") (jstr "</i>") (r1.length + 1) r1
  emphGo [jstr "~~"] (jstr "<s>") (jstr "</s>") (r2.length + 1) r2

/-- The anchored fenced-code rewrite `` ^```(\w*)([\s\S]*)```$ ``. -/
def abfCodeFence (s : List Char) : List Char :=
  if (jstr "```").isPrefixOf s then
    let w := (s.drop 3).takeWhile isWordChar
    if 3 + w.length + 3 ≤ s.length ∧ (jstr "```").isSuffixOf s then
      let content := (s.drop (3 + w.length)).take (s.length - 3 - (3 + w.length))
      jstr "<pre><code>" ++ jsTrim content ++ jstr "</code></pre>"
    else s
  else s

/-- The anchored inline-code rewrite `` ^`([\s\S]*)`$ ``. -/
def abfInlineCode (s : List Char) : List Char :=
  if s.head? = some btick ∧ 2 ≤ s.length ∧ s.getLast? = some btick then
    jstr "<code>" ++ jsTrim ((s.drop 1).take (s.length - 2)) ++ jstr "</code>"
  else s

/-- The anchored display-math rewrite `^\$\$([\s\S]*)\$\$$`. -/
def abfMathBlock (s : List Char) : List Char :=
  if (jstr "$$").isPrefixOf s ∧ 4 ≤ s.length ∧ (jstr "$$").isSuffixOf s then
    jstr "\\[" ++ jsTrim ((s.drop 2).take (s.length - 4)) ++ jstr "\\]"
  else s

/-- The anchored inline-math rewrite `^\$([\s\S]*)\$$`. -/
def abfMathInline (s : List Char) : List Char :=
  if s.head? = some '$' ∧ 2 ≤ s.length ∧ s.getLast? = some '$' then
    jstr "\\(" ++ jsTrim ((s.drop 1).take (s.length - 2)) ++ jstr "\\)"
  else s

/-- `applyBlockFormatting` from `parser.ts`: the four anchored rewrites in
sequence. -/
def applyBlockFormatting (text : List Char) : List Char :=
  abfMathInline (abfMathBlock (abfInlineCode (abfCodeFence text)))

/-- The final `/\r?\n/g → "<br>"` rewrite of `formatFlashcardField`. -/
def nlToBr : List Char → List Char
  | [] => []
  | '\r' :: '\n' :: rest => jstr "<br>" ++ nlToBr rest
  | '\n' :: rest => jstr "<br>" ++ nlToBr rest
  | c :: rest => c :: nlToBr rest

/-- Formatting dispatch of `formatFlashcardField` on one segment. -/
def formatSeg (b : Seg) : List Char :=
  if b.blockType = 0 then
    convertToAnkiCloze (applyMarkdownFormatting b.content) false false
  else if b.blockType = 1 then
    convertToAnkiCloze (applyBlockFormatting b.content) true false
  else if b.blockType = 2 then
    convertToAnkiCloze (applyBlockFormatting b.content) false true
  else b.content

/-- `formatFlashcardField` from `parser.ts`. -/
def formatFlashcardField (content : List Char) : List Char :=
  let codeBlocks := getCodeBlocks content
  let latexBlocks := getLatexBlocks content
  let blockSequence := getBlockSequence content [codeBlocks, latexBlocks]
  let result := (blockSequence.map formatSeg).flatten
  nlToBr (jsTrim result)

/-!  ## Predicates used in the statements -/

/-- Well-formed span lists: every span is a genuine range. -/
def spansWF (blocks : List (List SpanR)) : Prop :=
  ∀ arr ∈ blocks, ∀ s ∈ arr, s.start ≤ s.stop

/-- The blocks form a chain starting at `e`: each block starts no earlier
than the previous block's end. -/
def chainFrom : Nat → List ABlock → Prop
  | _, [] => True
  | e, b :: rest => e ≤ b.indices.start ∧ chainFrom b.indices.stop rest

/-- Characters that may appear in a brace-run cloze body (the regex's
`[^\{\}\n\r:]` class) and are also inert for passes 2 and 3 (no brace, no
`=`). -/
def goodClozeChar (c : Char) : Prop :=
  c ≠ '{' ∧ c ≠ '}' ∧ c ≠ '\n' ∧ c ≠ '\r' ∧ c ≠ ':' ∧ c ≠ '='

instance (c : Char) : Decidable (goodClozeChar c) := by
  unfold goodClozeChar; infer_instance

instance (a : List Char) : Decidable (plainChars a) := by
  unfold plainChars; infer_instance

instance (a : List Char) : Decidable (braceFree a) := by
  unfold braceFree; infer_instance

instance (blocks : List (List SpanR)) : Decidable (spansWF blocks) := by
  unfold spansWF; infer_instance

/-!  # Theorems -/

/-!  ## Generic list helpers -/

theorem takeWhile_append_all {p : Char → Bool} {l r : List Char}
    (h : ∀ x ∈ l, p x = true) :
    List.takeWhile p (l ++ r) = l ++ List.takeWhile p r := by
  induction l with
  | nil => simp
  | cons a t ih =>
    simp only [List.cons_append, List.takeWhile_cons, h a (by simp)]
    simpa using ih (fun x hx => h x (by simp [hx]))

theorem takeWhile_eq_nil_of_head {p : Char → Bool} {r : List Char}
    (h : ∀ x, r.head? = some x → p x = false) :
    List.takeWhile p r = [] := by
  cases r with
  | nil => rfl
  | cons a t => simp [List.takeWhile_cons, h a rfl]

theorem takeWhile_replicate_of_head {p : Char → Bool} {n : Nat} {a : Char} {r : List Char}
    (ha : p a = true) (hr : ∀ x, r.head? = some x → p x = false) :
    List.takeWhile p (List.replicate n a ++ r) = List.replicate n a := by
  rw [takeWhile_append_all (fun x hx => by rw [List.eq_of_mem_replicate hx]; exact ha),
    takeWhile_eq_nil_of_head hr, List.append_nil]

theorem drop_replicate_append {n : Nat} {a : Char} {r : List Char} :
    (List.replicate n a ++ r).drop n = r := by
  have h := List.drop_left (List.replicate n a) r
  rwa [List.length_replicate] at h

theorem drop_eq_slice_append {cs : List Char} {a b : Nat} (hab : a ≤ b) :
    cs.drop a = listSlice cs a b ++ cs.drop b := by
  have h1 : a + (b - a) = b := by omega
  calc cs.drop a
      = (cs.drop a).take (b - a) ++ (cs.drop a).drop (b - a) :=
        (List.take_append_drop _ _).symm
    _ = listSlice cs a b ++ cs.drop b := by
        rw [List.drop_drop, h1]; rfl

theorem head_replicate_ne {c x : Char} {n : Nat} (hn : 1 ≤ n) {y : Char}
    (h : (List.replicate n c).head? = some y) (hxc : x ≠ c) : y ≠ x := by
  obtain ⟨m, rfl⟩ : ∃ m, n = m + 1 := ⟨n - 1, by omega⟩
  simp [List.replicate_succ] at h
  subst h
  exact fun hcx => hxc hcx.symm

/-!  ## Digit-character facts -/

theorem digitChar_mem (k : Nat) :
    digitChar k ∈ ['0', '1', '2', '3', '4', '5', '6', '7', '8', '9'] := by
  unfold digitChar
  split <;> simp

theorem natToCharsAux_digits :
    ∀ (fuel n : Nat), ∀ ch ∈ natToCharsAux fuel n,
      ch ∈ ['0', '1', '2', '3', '4', '5', '6', '7', '8', '9'] := by
  intro fuel
  induction fuel with
  | zero => intro n ch h; simp [natToCharsAux] at h
  | succ f ih =>
    intro n ch h
    simp only [natToCharsAux] at h
    split at h
    · simp at h; rw [h]; exact digitChar_mem n
    · rw [List.mem_append] at h
      rcases h with h | h
      · exact ih _ ch h
      · simp at h; rw [h]; exact digitChar_mem (n % 10)

theorem natToChars_digits {n : Nat} {ch : Char} (h : ch ∈ natToChars n) :
    ch ∈ ['0', '1', '2', '3', '4', '5', '6', '7', '8', '9'] :=
  natToCharsAux_digits _ _ ch h

theorem digit_goodClozeChar {ch : Char}
    (h : ch ∈ ['0', '1', '2', '3', '4', '5', '6', '7', '8', '9']) :
    goodClozeChar ch := by
  fin_cases h <;> decide

/-!  ## Field Splitter lemmas -/

theorem countLeading_replicate {n : Nat} {r : List Char}
    (hr : ∀ x, r.head? = some x → x ≠ ':') :
    countLeading ':' (List.replicate n ':' ++ r) = n := by
  induction n with
  | zero =>
    simp only [List.replicate, List.nil_append]
    cases r with
    | nil => rfl
    | cons a t => simp [countLeading, hr a rfl]
  | succ m ih => simp [List.replicate_succ, countLeading, ih]

theorem splitGoF_nil (f : Nat) (cur : List Char) (d : Int) (rv : Bool) :
    splitGoF f [] cur d rv = (if cur.isEmpty then [] else [cur], rv) := by
  cases f <;> rfl

theorem splitGoF_plain :
    ∀ (a : List Char), plainChars a →
      ∀ (f : Nat) (rest cur : List Char) (d : Int) (rv : Bool),
        splitGoF (f + a.length) (a ++ rest) cur d rv = splitGoF f rest (cur ++ a) d rv := by
  intro a
  induction a with
  | nil => intro _ f rest cur d rv; simp
  | cons ch a ih =>
    intro h f rest cur d rv
    have hch := h ch (by simp)
    have ha : plainChars a := fun x hx => h x (by simp [hx])
    show splitGoF ((f + a.length) + 1) (ch :: (a ++ rest)) cur d rv = _
    rw [splitGoF, if_neg (fun hcon => hch.1 hcon.1)]
    simp only [hch.2.1, if_false, hch.2.2]
    rw [ih ha f rest (cur ++ [ch]) d rv]
    simp

theorem splitGoF_depth :
    ∀ (a : List Char), braceFree a →
      ∀ (f : Nat) (rest cur : List Char) (d : Int), d ≠ 0 → ∀ (rv : Bool),
        splitGoF (f + a.length) (a ++ rest) cur d rv = splitGoF f rest (cur ++ a) d rv := by
  intro a
  induction a with
  | nil => intro _ f rest cur d _ rv; simp
  | cons ch a ih =>
    intro h f rest cur d hd rv
    have hch := h ch (by simp)
    have ha : braceFree a := fun x hx => h x (by simp [hx])
    show splitGoF ((f + a.length) + 1) (ch :: (a ++ rest)) cur d rv = _
    rw [splitGoF, if_neg (fun hcon => hd hcon.2.2)]
    simp only [hch.1, if_false, hch.2]
    rw [ih ha f rest (cur ++ [ch]) d hd rv]
    simp

theorem splitGoF_sep (n : Nat) (hn : 2 ≤ n) (rest cur : List Char) (f : Nat) (rv : Bool)
    (hr : ∀ x, rest.head? = some x → x ≠ ':') :
    splitGoF (f + n) (List.replicate n ':' ++ rest) cur 0 rv =
      ((cur :: (splitGoF (f + (n - 1)) rest [] 0 (decide (n = 3))).1),
       (splitGoF (f + (n - 1)) rest [] 0 (decide (n = 3))).2) := by
  obtain ⟨m, rfl⟩ : ∃ m, n = m + 2 := ⟨n - 2, by omega⟩
  have hrep : List.replicate (m + 2) ':' ++ rest =
      ':' :: (':' :: (List.replicate m ':' ++ rest)) := by
    simp [List.replicate_succ]
  rw [hrep]
  show splitGoF ((f + (m + 1)) + 1) _ cur 0 rv = _
  rw [splitGoF, if_pos ⟨rfl, by simp, rfl⟩]
  have hcount : countLeading ':' (':' :: (':' :: (List.replicate m ':' ++ rest))) = m + 2 := by
    rw [← hrep]; exact countLeading_replicate hr
  simp only [hcount]
  have hdrop : (':' :: (List.replicate m ':' ++ rest)).drop (m + 2 - 1) = rest := by
    have : (':' :: (List.replicate m ':' ++ rest)) = List.replicate (m + 1) ':' ++ rest := by
      simp [List.replicate_succ]
    rw [this]
    have h2 : m + 2 - 1 = m + 1 := by omega
    rw [h2, drop_replicate_append]
  rw [hdrop]
  have hf : m + 2 - 1 = m + 1 := by omega
  rw [hf]

theorem splitIntoFields_single (a b : List Char) (n : Nat)
    (ha : plainChars a) (hb : plainChars b) (hn : 2 ≤ n) :
    splitIntoFields (a ++ (List.replicate n ':' ++ b)) =
      ((if b.isEmpty then [jsTrim a] else [jsTrim a, jsTrim b]), decide (n = 3)) := by
  unfold splitIntoFields
  have hlen : (a ++ (List.replicate n ':' ++ b)).length + 1 =
      (n + b.length + 1) + a.length := by simp; omega
  rw [hlen, splitGoF_plain a ha (n + b.length + 1) (List.replicate n ':' ++ b) [] 0 false]
  have hf2 : n + b.length + 1 = (b.length + 1) + n := by omega
  rw [hf2]
  have hbh : ∀ x, b.head? = some x → x ≠ ':' := by
    intro x hx
    cases b with
    | nil => simp at hx
    | cons y t =>
      simp at hx
      exact hx ▸ (hb y (by simp)).1
  rw [List.nil_append, splitGoF_sep n hn b a (b.length + 1) false hbh]
  have hf3 : (b.length + 1) + (n - 1) = n + b.length := by omega
  rw [hf3]
  have hend := splitGoF_plain b hb n [] [] 0 (decide (n = 3))
  rw [List.append_nil] at hend
  rw [hend, splitGoF_nil, List.nil_append]
  by_cases hb0 : b.isEmpty
  · simp [hb0]
  · simp [hb0]

theorem splitGoF_braced (a : List Char) (hbf : braceFree a) (f : Nat) (cur : List Char)
    (rv : Bool) :
    splitGoF (f + (a.length + 2)) ('{' :: (a ++ ['}'])) cur 0 rv =
      (if (cur ++ ('{' :: (a ++ ['}']))).isEmpty then []
       else [cur ++ ('{' :: (a ++ ['}']))], rv) := by
  show splitGoF ((f + (a.length + 1)) + 1) ('{' :: (a ++ ['}'])) cur 0 rv = _
  rw [splitGoF, if_neg (fun hcon => absurd hcon.1 (by decide))]
  show splitGoF (f + (a.length + 1)) (a ++ ['}']) (cur ++ ['{']) 1 rv = _
  rw [show f + (a.length + 1) = (f + 1) + a.length from by omega]
  rw [splitGoF_depth a hbf (f + 1) ['}'] (cur ++ ['{']) 1 (by decide) rv]
  rw [splitGoF, if_neg (fun hcon => absurd hcon.1 (by decide))]
  show splitGoF f [] (((cur ++ ['{']) ++ a) ++ ['}']) 0 rv = _
  rw [splitGoF_nil]
  simp

/-- C3: a run of two or more consecutive colons is a field separator only
at brace-nesting depth 0; the whole run is consumed and each field is
trimmed.  First conjunct: a single depth-0 run of any width `n ≥ 2` splits
`a ++ ":"*n ++ b` into exactly the two trimmed fields.  Second conjunct:
inside braces no split happens at all.  Third conjunct: the body
`{a::b}::c` splits into `["{a::b}", "c"]`. -/
theorem fieldSplit_depth_aware :
    (∀ (a b : List Char) (n : Nat), 2 ≤ n → plainChars a → plainChars b → b ≠ [] →
      splitIntoFields (a ++ (List.replicate n ':' ++ b)) =
        ([jsTrim a, jsTrim b], decide (n = 3))) ∧
    (∀ a : List Char, braceFree a →
      splitIntoFields ('{' :: (a ++ ['}'])) = ([jsTrim ('{' :: (a ++ ['}']))], false)) ∧
    splitIntoFields (jstr "\x7ba::b\x7d::c") = ([jstr "\x7ba::b\x7d", jstr "c"], false) := by
  refine ⟨?_, ?_, by decide⟩
  · intro a b n hn ha hb hbne
    rw [splitIntoFields_single a b n ha hb hn]
    simp [List.isEmpty_iff, hbne]
  · intro a hbf
    unfold splitIntoFields
    have hlen : ('{' :: (a ++ ['}'])).length + 1 = 1 + (a.length + 2) := by
      simp; omega
    rw [hlen, splitGoF_braced a hbf 1 [] false]
    simp

/-- C4 counterexample: the body `a:::b::c` contains a depth-0 separator run
of exactly three colons (and `a:::b` alone does set the flag), yet
`splitIntoFields` returns the reversed-card flag `false`, because the flag
is re-assigned `colonCount == 3` at every separator run and the final
two-colon run overwrites it. -/
theorem fieldSplit_reversed_cex :
    (splitIntoFields (jstr "a:::b::c")).1 = [jstr "a", jstr "b", jstr "c"] ∧
    (splitIntoFields (jstr "a:::b::c")).2 = false ∧
    (splitIntoFields (jstr "a:::b")).2 = true := by
  refine ⟨by decide, by decide, by decide⟩

/-- C4 (amended): the reversed-card flag records only the last depth-0
separator run: it is `true` iff that run has exactly three colons.  First
conjunct: with a single run of width `n ≥ 2` the flag is `decide (n = 3)`.
Then: `Front:::Back` → `["Front","Back"]` with flag `true`; `Front::Back`
→ the same fields with flag `false`; a final three-colon run sets the flag
even after an earlier two-colon run (`a::b:::c`). -/
theorem fieldSplit_reversed_flag :
    (∀ (a b : List Char) (n : Nat), 2 ≤ n → plainChars a → plainChars b →
      (splitIntoFields (a ++ (List.replicate n ':' ++ b))).2 = decide (n = 3)) ∧
    splitIntoFields (jstr "Front:::Back") = ([jstr "Front", jstr "Back"], true) ∧
    splitIntoFields (jstr "Front::Back") = ([jstr "Front", jstr "Back"], false) ∧
    (splitIntoFields (jstr "a::b:::c")).2 = true := by
  refine ⟨?_, by decide, by decide, by decide⟩
  intro a b n hn ha hb
  rw [splitIntoFields_single a b n ha hb hn]

/-- C10 counterexample: the body `"a:: "` (trailing whitespace after the
final separator run) returns the fields `["a", ""]` — the whitespace-only
trailing part survives the pre-trim emptiness check and trims to an empty
trailing field, so the splitter can return a trailing empty field. -/
theorem fieldSplit_trailing_cex :
    (splitIntoFields (jstr "a:: ")).1 = [jstr "a", []] ∧
    ((splitIntoFields (jstr "a:: ")).1).getLast? = some [] := by
  refine ⟨by decide, by decide⟩

/-- C10 (amended): the part after the final separator run is dropped only
when it is empty before trimming.  First conjunct: a body that ends exactly
in a depth-0 separator run drops the empty trailing part (`"a::"` →
`["a"]`).  Second conjunct: a leading separator run keeps the empty first
field (`"::a"` → `["", "a"]`).  The concrete instances follow, including
the whitespace-tail case `"a:: "` → `["a", ""]` in which the trailing field
survives as an empty trimmed field. -/
theorem fieldSplit_empty_fields :
    (∀ (a : List Char) (n : Nat), 2 ≤ n → plainChars a →
      splitIntoFields (a ++ List.replicate n ':') = ([jsTrim a], decide (n = 3))) ∧
    (∀ (b : List Char) (n : Nat), 2 ≤ n → plainChars b → b ≠ [] →
      splitIntoFields (List.replicate n ':' ++ b) = ([[], jsTrim b], decide (n = 3))) ∧
    splitIntoFields (jstr "a::") = ([jstr "a"], false) ∧
    splitIntoFields (jstr "::a") = ([[], jstr "a"], false) ∧
    splitIntoFields (jstr "a:: ") = ([jstr "a", []], false) := by
  refine ⟨?_, ?_, by decide, by decide, by decide⟩
  · intro a n hn ha
    have h := splitIntoFields_single a [] n ha (fun x hx => by simp at hx) hn
    rw [List.append_nil] at h
    rw [h]
    simp
  · intro b n hn hb hbne
    have h := splitIntoFields_single [] b n (fun x hx => by simp at hx) hb hn
    rw [List.nil_append] at h
    rw [h]
    simp [List.isEmpty_iff, hbne, jsTrim]

/-!  ## Reconciliation Engine lemmas -/

theorem syncAddGo_allNew (ends newIds : List Nat) :
    ∀ (j L : Nat), ends.length = newIds.length →
      ((syncAddGo (ends.map fun e => ⟨e, none⟩) (newIds.map Option.some) j L).1).map editTarget =
        (ends.enumFrom j).map (fun p => p.2 + 1 + p.1) := by
  induction ends generalizing newIds with
  | nil =>
    intro j L h
    cases newIds with
    | nil => simp [syncAddGo]
    | cons _ _ => simp at h
  | cons e es ih =>
    intro j L h
    cases newIds with
    | nil => simp at h
    | cons nid ns =>
      simp only [List.map_cons, syncAddGo]
      split
      · simp only [List.map_cons, editTarget]
        rw [ih ns (j + 1) (L + 2) (by simpa using h)]
        simp [List.enumFrom]
      · simp only [List.map_cons, editTarget]
        rw [ih ns (j + 1) (L + 1) (by simpa using h)]
        simp [List.enumFrom]

/-- C1: for a pass over new cards with no previous identifier in which
every batched create succeeds, the k-th footnote is inserted at
`endLine + 1 + k` — immediately after the card block's end line, offset by
the number of lines already inserted in the same pass.  In particular
blocks ending at lines 2, 5, 9 receive their identifier lines at document
lines 3, 7, 12. -/
theorem sync_insert_offsets :
    (∀ (ends newIds : List Nat) (L : Nat), ends.length = newIds.length →
      ((syncAddGo (ends.map fun e => ⟨e, none⟩) (newIds.map Option.some) 0 L).1).map editTarget =
        ends.enum.map (fun p => p.2 + 1 + p.1)) ∧
    syncAddGo [⟨2, none⟩, ⟨5, none⟩, ⟨9, none⟩] [some 100, some 101, some 102] 0 20 =
      ([.insertAt 3 100 false, .insertAt 7 101 false, .insertAt 12 102 false], 3) := by
  constructor
  · intro ends newIds L h
    rw [syncAddGo_allNew ends newIds 0 L h]
    rfl
  · decide

/-- Witness for `sync_insert_offsets`: three new cards ending at lines
2, 5, 9 get their footnotes at lines 3, 7, 12. -/
theorem sync_insert_offsets_w :
    ((syncAddGo ([2, 5, 9].map fun e => ⟨e, none⟩)
        ([100, 101, 102].map Option.some) 0 20).1).map editTarget =
      [2, 5, 9].enum.map (fun p => p.2 + 1 + p.1) :=
  sync_insert_offsets.1 [2, 5, 9] [100, 101, 102] 20 rfl

theorem syncAddGo_partial (cards : List SyncCard) :
    ∀ (ids : List (Option Nat)) (j L : Nat),
      ((syncAddGo cards ids j L).1).map editNewId = (ids.take cards.length).reduceOption ∧
      (syncAddGo cards ids j L).2 = (ids.take cards.length).reduceOption.length := by
  induction cards with
  | nil => intro ids j L; simp [syncAddGo]
  | cons c cs ih =>
    intro ids j L
    cases ids with
    | nil => simpa [syncAddGo] using ih [] j L
    | cons i is =>
      cases i with
      | none =>
        simp only [syncAddGo, List.length_cons, List.take_succ_cons,
          List.reduceOption_cons_of_none]
        exact ih is j L
      | some nid =>
        cases hc : c.oldId with
        | none =>
          simp only [syncAddGo, hc, List.length_cons, List.take_succ_cons,
            List.reduceOption_cons_of_some]
          split
          · simp only [List.map_cons, editNewId, List.length_cons]
            exact ⟨by rw [(ih is (j + 1) (L + 2)).1],
                   by rw [(ih is (j + 1) (L + 2)).2]⟩
          · simp only [List.map_cons, editNewId, List.length_cons]
            exact ⟨by rw [(ih is (j + 1) (L + 1)).1],
                   by rw [(ih is (j + 1) (L + 1)).2]⟩
        | some oldId =>
          simp only [syncAddGo, hc, List.length_cons, List.take_succ_cons,
            List.reduceOption_cons_of_some]
          simp only [List.map_cons, editNewId, List.length_cons]
          exact ⟨by rw [(ih is j L).1], by rw [(ih is j L).2]⟩

/-- C9: the new-card loop never aborts on a partially failed batched
create: the ids written back to the document are exactly the numeric
entries of the returned id list (in order), `cardsAdded` counts exactly
those, and every other record is skipped (produces no edit). -/
theorem sync_partial_batch :
    ∀ (cards : List SyncCard) (ids : List (Option Nat)) (L : Nat),
      ((syncAddGo cards ids 0 L).1).map editNewId = (ids.take cards.length).reduceOption ∧
      (syncAddGo cards ids 0 L).2 = (ids.take cards.length).reduceOption.length ∧
      ((syncAddGo cards ids 0 L).1).length = (syncAddGo cards ids 0 L).2 := by
  intro cards ids L
  obtain ⟨h1, h2⟩ := syncAddGo_partial cards ids 0 L
  refine ⟨h1, h2, ?_⟩
  rw [h2, ← h1, List.length_map]

/-!  ## Deletion Scanner: C5 -/

/-- C5 counterexample: on the document `"delete ^123\n"` the scanner
returns exactly the id 123, but the excised text is the single newline
`"\n"`, not the empty string: the lazy `\s*?$` tail of the regex ends the
match before the line terminator, so the newline survives the excision. -/
theorem delete_scanner_cex :
    deleteMarkedModel (jstr "delete ^123\n") = ([123], jstr "\n") ∧
    (deleteMarkedModel (jstr "delete ^123\n")).2 ≠ ([] : List Char) := by
  refine ⟨by decide, by decide⟩

/-- C5 (amended): the document `"delete ^123\n"` yields exactly one
deletion id, 123 (count 1), and after the single match's span is excised
the document text is `"\n"` — the match span ends before the trailing line
terminator. -/
theorem delete_scanner_single :
    (deleteMarkedModel (jstr "delete ^123\n")).1 = [123] ∧
    (deleteMarkedModel (jstr "delete ^123\n")).1.length = 1 ∧
    (deleteMarkedModel (jstr "delete ^123\n")).2 = jstr "\n" := by
  refine ⟨by decide, by decide, by decide⟩

/-!  ## Cloze Normalizer: C7 and C8 -/

/-- C7: cloze normalization is the identity on already-canonical input:
the card `{{c1::answer::hint}}` normalizes to itself (the negative
lookahead `(?!c\d+::)` excludes canonical bodies from pass 1, pass 2 needs
a digit directly after a single `{`, and pass 3 finds no `==`), and the
same holds with surrounding context. -/
theorem cloze_roundtrip_canonical :
    convertToAnkiCloze (jstr "\x7b\x7bc1::answer::hint\x7d\x7d") false false =
      jstr "\x7b\x7bc1::answer::hint\x7d\x7d" ∧
    convertToAnkiCloze (jstr "Q \x7b\x7bc1::answer::hint\x7d\x7d A") false false =
      jstr "Q \x7b\x7bc1::answer::hint\x7d\x7d A" ∧
    convertToAnkiCloze (jstr "\x7b\x7bc12::x\x7d\x7d") false false =
      jstr "\x7b\x7bc12::x\x7d\x7d" := by
  refine ⟨by decide, by decide, by decide⟩

/-- C8: the highlight form `==Paris==` in a plain segment normalizes to
`{{c1::Paris}}`, while the same text inside a fenced code block segment is
left untouched by cloze normalization (the segment is block-formatted to
`<pre><code>==Paris==</code></pre>` and `convertToAnkiCloze` with
`insideCode = true` keeps the `==...==` match verbatim). -/
theorem highlight_cloze_context :
    formatFlashcardField (jstr "==Paris==") = jstr "\x7b\x7bc1::Paris\x7d\x7d" ∧
    formatFlashcardField (jstr "```\n==Paris==\n```") =
      jstr "<pre><code>==Paris==</code></pre>" ∧
    convertToAnkiCloze (jstr "==Paris==") false false = jstr "\x7b\x7bc1::Paris\x7d\x7d" ∧
    convertToAnkiCloze (jstr "==Paris==") true false = jstr "==Paris==" := by
  refine ⟨by decide, by decide, by decide, by decide⟩

/-!  ## Cloze Normalizer: C2 -/

theorem clozeLookaheadC_no_colon {l : List Char} (h : ∀ ch ∈ l, ch ≠ ':') :
    clozeLookaheadC l = false := by
  unfold clozeLookaheadC
  split
  · have hdec : decide ((l.tail.drop (l.tail.takeWhile Char.isDigit).length).take 2 =
        [':', ':']) = false := by
      rw [decide_eq_false_iff_not]
      intro heq
      have h1 : (':' : Char) ∈ (l.tail.drop (l.tail.takeWhile Char.isDigit).length).take 2 := by
        rw [heq]; simp
      have h2 := List.take_subset _ _ h1
      have h3 := List.drop_subset _ _ h2
      have h4 : (':' : Char) ∈ l := by
        cases l with
        | nil => simp at h3
        | cons a t => exact List.mem_cons_of_mem a h3
      exact h ':' h4 rfl
    simp only [hdec, Bool.and_false]
  · rfl

theorem tryBraceCloze_shape (o c : Nat) (w : List Char) (ho : 1 ≤ o) (hc : 1 ≤ c)
    (hw : w ≠ []) (hgood : ∀ ch ∈ w, goodClozeChar ch) :
    tryBraceCloze (List.replicate o '{' ++ (w ++ List.replicate c '}')) =
      some (o, w, none, c, o + w.length + c) := by
  have hwt : ∀ ch ∈ w, isTextChar ch = true := by
    intro ch hch
    obtain ⟨h1, h2, h3, h4, h5, _⟩ := hgood ch hch
    simp [isTextChar, h1, h2, h3, h4, h5]
  have hwh : ∀ x, (w ++ List.replicate c '}').head? = some x →
      (fun ch => decide (ch = '{')) x = false := by
    intro x hx
    cases w with
    | nil => exact absurd rfl hw
    | cons wh wt =>
      simp at hx
      rw [← hx]
      simp [(hgood wh (by simp)).1]
  have hopens : List.takeWhile (fun ch => decide (ch = '{'))
      (List.replicate o '{' ++ (w ++ List.replicate c '}')) = List.replicate o '{' :=
    takeWhile_replicate_of_head (by decide) hwh
  have hcolon : ∀ ch ∈ w ++ List.replicate c '}', ch ≠ ':' := by
    intro ch hch
    rw [List.mem_append] at hch
    rcases hch with hm | hm
    · exact (hgood ch hm).2.2.2.2.1
    · rw [List.eq_of_mem_replicate hm]; decide
  have hla : clozeLookaheadC (w ++ List.replicate c '}') = false :=
    clozeLookaheadC_no_colon hcolon
  have hrephead : ∀ x, (List.replicate c '}').head? = some x → isTextChar x = false := by
    intro x hx
    obtain ⟨m, rfl⟩ : ∃ m, c = m + 1 := ⟨c - 1, by omega⟩
    rw [List.replicate_succ] at hx
    simp at hx
    rw [← hx]
    decide
  have htext : List.takeWhile isTextChar (w ++ List.replicate c '}') = w := by
    rw [takeWhile_append_all hwt, takeWhile_eq_nil_of_head hrephead, List.append_nil]
  have htake2 : ¬((List.replicate c '}').take 2 = [':', ':']) := by
    intro heq
    have h1 : (':' : Char) ∈ (List.replicate c '}').take 2 := by rw [heq]; simp
    have h2 := List.take_subset _ _ h1
    have h3 := List.eq_of_mem_replicate h2
    simp at h3
  have hcloses : List.takeWhile (fun ch => decide (ch = '}')) (List.replicate c '}') =
      List.replicate c '}' := by
    have h := takeWhile_replicate_of_head (p := fun ch => decide (ch = '}')) (n := c)
      (a := '}') (r := ([] : List Char)) (by decide) (by intro x hx; simp at hx)
    rw [List.append_nil] at h
    exact h
  have ho0 : ¬(o = 0) := by omega
  have hwne : ¬(w.isEmpty = true) := by
    simp [List.isEmpty_iff]; exact hw
  have hcne : ¬((List.replicate c '}').isEmpty = true) := by
    simp [List.isEmpty_iff, List.replicate_eq_nil_iff]
    omega
  simp only [tryBraceCloze, hopens, List.length_replicate, ho0, if_false,
    drop_replicate_append, hla, Bool.false_eq_true, htext, hwne, List.drop_left,
    htake2, hcloses, hcne]

theorem clozePass1Go_nil (b : Bool) (f : Nat) : clozePass1Go b f [] = [] := by
  cases f <;> rfl

theorem clozePass2Go_nil (f : Nat) (prev : Option Char) : clozePass2Go f prev [] = [] := by
  cases f <;> rfl

theorem clozePass3Go_nil (b1 b2 : Bool) (f : Nat) : clozePass3Go b1 b2 f [] = [] := by
  cases f <;> rfl

theorem clozePass1_brace_run (o c : Nat) (w : List Char) (ho : 1 ≤ o) (hc : 1 ≤ c)
    (hw : w ≠ []) (hgood : ∀ ch ∈ w, goodClozeChar ch) :
    clozePass1Go false ((List.replicate o '{' ++ (w ++ List.replicate c '}')).length + 1)
      (List.replicate o '{' ++ (w ++ List.replicate c '}')) =
      clozeCanonical (min o c) w none := by
  obtain ⟨o', rfl⟩ : ∃ o', o = o' + 1 := ⟨o - 1, by omega⟩
  have hshape := tryBraceCloze_shape (o' + 1) c w (by omega) hc hw hgood
  have hcons : List.replicate (o' + 1) '{' ++ (w ++ List.replicate c '}') =
      '{' :: (List.replicate o' '{' ++ (w ++ List.replicate c '}')) := by
    rw [List.replicate_succ, List.cons_append]
  rw [hcons] at hshape ⊢
  simp only [List.length_cons]
  rw [clozePass1Go, hshape]
  have hdrop : ('{' :: (List.replicate o' '{' ++ (w ++ List.replicate c '}'))).drop
      ((o' + 1) + w.length + c) = [] := by
    apply List.drop_eq_nil_of_le
    simp [List.length_replicate]
    omega
  simp only [Bool.false_eq_true, false_and, if_false, hdrop, clozePass1Go_nil,
    List.append_nil]

theorem clozePass2Go_no_brace :
    ∀ (l : List Char), (∀ ch ∈ l, ch ≠ '{') → ∀ (f : Nat), l.length ≤ f →
      ∀ (prev : Option Char), clozePass2Go f prev l = l := by
  intro l
  induction l with
  | nil => intro _ f _ prev; exact clozePass2Go_nil f prev
  | cons a t ih =>
    intro h f hf prev
    obtain ⟨f', rfl⟩ : ∃ f', f = f' + 1 := ⟨f - 1, by simp at hf; omega⟩
    rw [clozePass2Go, if_neg (fun hcon => (h a (by simp)) hcon.1)]
    rw [ih (fun x hx => h x (by simp [hx])) f' (by simp at hf; omega) (some a)]

theorem clozePass2Go_canonical {rest2 : List Char} (h : ∀ ch ∈ rest2, ch ≠ '{') (f : Nat)
    (hf : rest2.length + 2 ≤ f) :
    clozePass2Go f none ('{' :: '{' :: rest2) = '{' :: '{' :: rest2 := by
  obtain ⟨f2, rfl⟩ : ∃ f2, f = f2 + 2 := ⟨f - 2, by omega⟩
  show clozePass2Go ((f2 + 1) + 1) none ('{' :: '{' :: rest2) = _
  rw [clozePass2Go, if_pos ⟨rfl, by simp⟩]
  have htn : tryNumCloze ('{' :: '{' :: rest2) = none := by
    simp [tryNumCloze, List.takeWhile_cons]
  rw [htn]
  rw [clozePass2Go, if_neg (fun hcon => hcon.2 rfl)]
  rw [clozePass2Go_no_brace rest2 h f2 (by omega) (some '{')]

theorem tryHighlight_no_eq {a : Char} {t : List Char} (ha : a ≠ '=') :
    tryHighlight (a :: t) = none := by
  unfold tryHighlight
  rw [if_neg]
  intro heq
  cases t with
  | nil => simp [List.take] at heq
  | cons b t' =>
    simp [List.take] at heq
    exact ha heq.1

theorem clozePass3Go_no_eq :
    ∀ (l : List Char), (∀ ch ∈ l, ch ≠ '=') → ∀ (f : Nat), l.length ≤ f →
      ∀ (b1 b2 : Bool), clozePass3Go b1 b2 f l = l := by
  intro l
  induction l with
  | nil => intro _ f _ b1 b2; exact clozePass3Go_nil b1 b2 f
  | cons a t ih =>
    intro h f hf b1 b2
    obtain ⟨f', rfl⟩ : ∃ f', f = f' + 1 := ⟨f - 1, by simp at hf; omega⟩
    have hth := tryHighlight_no_eq (t := t) (h a (by simp))
    rw [clozePass3Go, hth]
    rw [ih (fun x hx => h x (by simp [hx])) f' (by simp at hf; omega) b1 b2]

theorem cloze_min_shape (o c : Nat) (w : List Char) (ho : 1 ≤ o) (hc : 1 ≤ c)
    (hw : w ≠ []) (hgood : ∀ ch ∈ w, goodClozeChar ch) :
    convertToAnkiCloze (List.replicate o '{' ++ (w ++ List.replicate c '}')) false false =
      clozeCanonical (min o c) w none := by
  have hsh : clozeCanonical (min o c) w none =
      '{' :: '{' :: ('c' :: (natToChars (min o c) ++ ([':', ':'] ++ (w ++ ['}', '}'])))) := by
    simp [clozeCanonical, List.append_assoc]
  have htail : ∀ ch ∈ 'c' :: (natToChars (min o c) ++ ([':', ':'] ++ (w ++ ['}', '}']))),
      ch ≠ '{' := by
    intro ch hch
    simp at hch
    rcases hch with h1 | h1 | h1 | h1 | h1
    · rw [h1]; decide
    · exact (digit_goodClozeChar (natToChars_digits h1)).1
    · rw [h1]; decide
    · exact (hgood ch h1).1
    · rw [h1]; decide
  have hnoeq : ∀ ch ∈ '{' :: '{' :: ('c' :: (natToChars (min o c) ++
      ([':', ':'] ++ (w ++ ['}', '}'])))), ch ≠ '=' := by
    intro ch hch
    rcases List.mem_cons.mp hch with h1 | hch2
    · subst h1; decide
    rcases List.mem_cons.mp hch2 with h1 | hch3
    · subst h1; decide
    rcases List.mem_cons.mp hch3 with h1 | hch4
    · subst h1; decide
    rcases List.mem_append.mp hch4 with h1 | hch5
    · exact (digit_goodClozeChar (natToChars_digits h1)).2.2.2.2.2
    rcases List.mem_append.mp hch5 with h1 | hch6
    · simp at h1; subst h1; decide
    rcases List.mem_append.mp hch6 with h1 | h1
    · exact (hgood ch h1).2.2.2.2.2
    · simp at h1; subst h1; decide
  simp only [convertToAnkiCloze]
  rw [clozePass1_brace_run o c w ho hc hw hgood]
  rw [hsh]
  rw [clozePass2Go_canonical htail _ (by simp only [List.length_cons]; omega)]
  rw [clozePass3Go_no_eq _ hnoeq _ (by omega) false false]

/-- C2 counterexample: `{{{word}}}` normalizes to group number 3 (it is
`min(3, 3)`), not group number 2 as the claim states. -/
theorem cloze_brace_cex :
    convertToAnkiCloze (jstr "\x7b\x7b\x7bword\x7d\x7d\x7d") false false ≠
      jstr "\x7b\x7bc2::word\x7d\x7d" ∧
    convertToAnkiCloze (jstr "\x7b\x7b\x7bword\x7d\x7d\x7d") false false =
      jstr "\x7b\x7bc3::word\x7d\x7d" := by
  refine ⟨by decide, by decide⟩

/-- C2 (amended): for every brace-run cloze form the group number is the
minimum of the opening and closing brace run lengths; in particular
`{{{word}}}` (three opening, three closing) normalizes to group number 3,
and the mismatched `{{word}` normalizes to group number 1. -/
theorem cloze_brace_min :
    (∀ (o c : Nat) (w : List Char), 1 ≤ o → 1 ≤ c → w ≠ [] →
      (∀ ch ∈ w, goodClozeChar ch) →
      convertToAnkiCloze (List.replicate o '{' ++ (w ++ List.replicate c '}')) false false =
        clozeCanonical (min o c) w none) ∧
    convertToAnkiCloze (jstr "\x7b\x7b\x7bword\x7d\x7d\x7d") false false =
      jstr "\x7b\x7bc3::word\x7d\x7d" ∧
    convertToAnkiCloze (jstr "\x7b\x7bword\x7d") false false =
      jstr "\x7b\x7bc1::word\x7d\x7d" := by
  refine ⟨?_, by decide, by decide⟩
  intro o c w ho hc hw hgood
  exact cloze_min_shape o c w ho hc hw hgood

/-- Witness for `cloze_brace_min`: the general statement applied at
`o = 3`, `c = 3`, `w = "word"` (so the group number is `min 3 3 = 3`),
with the resulting canonical form evaluated. -/
theorem cloze_brace_min_w :
    convertToAnkiCloze (List.replicate 3 '{' ++ (jstr "word" ++ List.replicate 3 '}'))
        false false = clozeCanonical (min 3 3) (jstr "word") none :=
  cloze_brace_min.1 3 3 (jstr "word") (by decide) (by decide) (by decide) (by decide)

/-!  ## Delimiter Scanner: C6 -/

theorem concatSegs_cons (s : Seg) (l : List Seg) :
    concatSegs (s :: l) = s.content ++ concatSegs l := by
  simp [concatSegs]

theorem concatSegs_append (a b : List Seg) :
    concatSegs (a ++ b) = concatSegs a ++ concatSegs b := by
  simp [concatSegs]

theorem chainFrom_filterOverlapGo :
    ∀ (l : List ABlock) (e : Nat), chainFrom e (filterOverlapGo e l) := by
  intro l
  induction l with
  | nil => intro e; trivial
  | cons b rest ih =>
    intro e
    by_cases hb : b.indices.start ≥ e
    · rw [filterOverlapGo, if_pos hb]
      exact ⟨hb, ih b.indices.stop⟩
    · rw [filterOverlapGo, if_neg hb]
      exact ih e

theorem mem_filterOverlapGo :
    ∀ (l : List ABlock) (e : Nat) (b : ABlock), b ∈ filterOverlapGo e l → b ∈ l := by
  intro l
  induction l with
  | nil => intro e b h; rw [filterOverlapGo] at h; simp at h
  | cons x rest ih =>
    intro e b h
    rw [filterOverlapGo] at h
    split at h
    · rcases List.mem_cons.mp h with h1 | h1
      · exact h1 ▸ List.mem_cons_self x rest
      · exact List.mem_cons_of_mem x (ih _ b h1)
    · exact List.mem_cons_of_mem x (ih e b h)

theorem mem_tagBlocks :
    ∀ (blocks : List (List SpanR)) (i : Nat) (b : ABlock),
      b ∈ tagBlocks i blocks → ∃ arr ∈ blocks, ∃ s ∈ arr, b.indices = s := by
  intro blocks
  induction blocks with
  | nil => intro i b h; rw [tagBlocks] at h; simp at h
  | cons arr rest ih =>
    intro i b h
    rw [tagBlocks] at h
    rcases List.mem_append.mp h with h1 | h1
    · obtain ⟨s, hs, hb⟩ := List.mem_map.mp h1
      exact ⟨arr, by simp, s, hs, by rw [← hb]⟩
    · obtain ⟨arr2, ha2, s, hs, hb⟩ := ih (i + 1) b h1
      exact ⟨arr2, by simp [ha2], s, hs, hb⟩

theorem concat_buildSeqGo (content : List Char) :
    ∀ (bs : List ABlock) (e : Nat), (∀ b ∈ bs, b.indices.start ≤ b.indices.stop) →
      chainFrom e bs → concatSegs (buildSeqGo content bs e) = content.drop e := by
  intro bs
  induction bs with
  | nil =>
    intro e _ _
    rw [buildSeqGo]
    by_cases hl : e < content.length
    · rw [if_pos hl, concatSegs_cons]
      show listSlice content e content.length ++ concatSegs [] = _
      rw [show concatSegs [] = [] from rfl, List.append_nil]
      unfold listSlice
      rw [show content.length - e = (content.drop e).length from by simp [List.length_drop]]
      exact List.take_length _
    · rw [if_neg hl]
      rw [show concatSegs [] = [] from rfl]
      exact (List.drop_eq_nil_of_le (by omega)).symm
  | cons b rest ih =>
    intro e hwf hchain
    obtain ⟨he, hch⟩ := hchain
    have hse : b.indices.start ≤ b.indices.stop := hwf b (by simp)
    have hrest := ih b.indices.stop (fun x hx => hwf x (by simp [hx])) hch
    rw [buildSeqGo, concatSegs_append, concatSegs_cons, hrest]
    by_cases hgap : b.indices.start > e
    · rw [if_pos hgap, concatSegs_cons]
      rw [show concatSegs [] = [] from rfl, List.append_nil]
      rw [← drop_eq_slice_append hse, ← drop_eq_slice_append (by omega : e ≤ b.indices.start)]
    · rw [if_neg hgap]
      rw [show concatSegs [] = [] from rfl, List.nil_append]
      have heq : b.indices.start = e := by omega
      rw [heq, ← drop_eq_slice_append (by omega : e ≤ b.indices.stop)]

/-- C6: `getBlockSequence` returns a complete partition — the concatenated
segment contents equal the original text (for any collection of
well-formed code/math span lists) — and when two spans overlap the
earlier-starting span is kept while the later-starting one is silently
discarded (dropping it from the input leaves the output unchanged). -/
theorem blockSequence_partition :
    (∀ (content : List Char) (blocks : List (List SpanR)), spansWF blocks →
      concatSegs (getBlockSequence content blocks) = content) ∧
    (∀ (content : List Char) (a b : SpanR), a.start ≤ b.start → b.start < a.stop →
      getBlockSequence content [[a], [b]] = getBlockSequence content [[a], []]) := by
  constructor
  · intro content blocks hwf
    simp only [getBlockSequence]
    have hwf2 : ∀ bl ∈ filterOverlapGo 0
        (List.insertionSort (fun x y : ABlock => x.indices.start ≤ y.indices.start)
          (tagBlocks 0 blocks)),
        bl.indices.start ≤ bl.indices.stop := by
      intro bl hbl
      have h1 := mem_filterOverlapGo _ _ _ hbl
      have h2 := (List.mem_insertionSort _).mp h1
      obtain ⟨arr, ha, s, hs, heq⟩ := mem_tagBlocks blocks 0 bl h2
      rw [heq]
      exact hwf arr ha s hs
    have hchain := chainFrom_filterOverlapGo
      (List.insertionSort (fun x y : ABlock => x.indices.start ≤ y.indices.start)
        (tagBlocks 0 blocks)) 0
    have h := concat_buildSeqGo content _ 0 hwf2 hchain
    simpa using h
  · intro content a b hab hover
    simp only [getBlockSequence]
    have h1 : tagBlocks 0 [[a], [b]] = [⟨a, 1⟩, ⟨b, 2⟩] := by
      simp [tagBlocks]
    have h2 : tagBlocks 0 [[a], []] = [⟨a, 1⟩] := by
      simp [tagBlocks]
    rw [h1, h2]
    have hs1 : List.insertionSort (fun x y : ABlock => x.indices.start ≤ y.indices.start)
        [⟨a, 1⟩, ⟨b, 2⟩] = [⟨a, 1⟩, ⟨b, 2⟩] := by
      simp [List.insertionSort, List.orderedInsert, hab]
    have hs2 : List.insertionSort (fun x y : ABlock => x.indices.start ≤ y.indices.start)
        [⟨a, 1⟩] = [⟨a, 1⟩] := by
      simp [List.insertionSort, List.orderedInsert]
    rw [hs1, hs2]
    have hno : ¬(b.start ≥ a.stop) := by omega
    have hf1 : filterOverlapGo 0 [(⟨a, 1⟩ : ABlock), ⟨b, 2⟩] = [⟨a, 1⟩] := by
      simp [filterOverlapGo, hno]
    have hf2 : filterOverlapGo 0 [(⟨a, 1⟩ : ABlock)] = [⟨a, 1⟩] := by
      simp [filterOverlapGo]
    rw [hf1, hf2]

/-- Witness for `blockSequence_partition`: both conjuncts applied at a
concrete text and concrete overlapping spans. -/
theorem blockSequence_partition_w :
    concatSegs (getBlockSequence (jstr "abcdef") [[⟨0, 4⟩], [⟨2, 6⟩]]) = jstr "abcdef" ∧
    getBlockSequence (jstr "abcdef") [[⟨0, 4⟩], [⟨2, 6⟩]] =
      getBlockSequence (jstr "abcdef") [[⟨0, 4⟩], []] :=
  ⟨blockSequence_partition.1 (jstr "abcdef") [[⟨0, 4⟩], [⟨2, 6⟩]] (by decide),
   blockSequence_partition.2 (jstr "abcdef") ⟨0, 4⟩ ⟨2, 6⟩ (by decide) (by decide)⟩

/-- Witness for `fieldSplit_depth_aware`: both general conjuncts applied at
concrete bodies. -/
theorem fieldSplit_depth_aware_w :
    splitIntoFields (jstr "Question" ++ (List.replicate 2 ':' ++ jstr "Answer")) =
      ([jsTrim (jstr "Question"), jsTrim (jstr "Answer")], decide (2 = 3)) ∧
    splitIntoFields ('{' :: (jstr "x::y" ++ ['}'])) =
      ([jsTrim ('{' :: (jstr "x::y" ++ ['}']))], false) :=
  ⟨fieldSplit_depth_aware.1 (jstr "Question") (jstr "Answer") 2 (by decide) (by decide)
      (by decide) (by decide),
   fieldSplit_depth_aware.2.1 (jstr "x::y") (by decide)⟩

/-- Witness for `fieldSplit_reversed_flag`: the general conjunct applied at
`Front:::Back`. -/
theorem fieldSplit_reversed_flag_w :
    (splitIntoFields (jstr "Front" ++ (List.replicate 3 ':' ++ jstr "Back"))).2 =
      decide (3 = 3) :=
  fieldSplit_reversed_flag.1 (jstr "Front") (jstr "Back") 3 (by decide) (by decide) (by decide)

/-- Witness for `fieldSplit_empty_fields`: both general conjuncts applied
at concrete bodies. -/
theorem fieldSplit_empty_fields_w :
    splitIntoFields (jstr "a" ++ List.replicate 2 ':') = ([jsTrim (jstr "a")], decide (2 = 3)) ∧
    splitIntoFields (List.replicate 2 ':' ++ jstr "b") =
      ([[], jsTrim (jstr "b")], decide (2 = 3)) :=
  ⟨fieldSplit_empty_fields.1 (jstr "a") 2 (by decide) (by decide),
   fieldSplit_empty_fields.2.1 (jstr "b") 2 (by decide) (by decide) (by decide)⟩
